import Mathlib

/-!
Shallow embedding of the NOC Oracle hybrid-retrieval engine
(`src/engine.py`, class `NOCEngine`), together with theorems checking the
specification's claims about it.

The embedding models:
  * `_extract_error_codes` — `re.findall(r"\b[A-Za-z]+-?\d+\b", text)`,
    embedded as an explicit left-to-right scanner with word boundaries;
  * the hybrid rerank inside `get_solution` — normalization of codes
    (remove hyphens, upper-case), the priority/other partition loop, the
    concatenation and the `[:3]` truncation;
  * the control flow of `get_solution` and `get_baseline_response`, with
    the external retriever and generator modeled as `Except`-valued
    oracles and the generator-invocation count made explicit;
  * the `GEMINI_API_KEY` check in `__init__`.
-/

/-- A retrieved document as the engine sees it: `page_content` plus the
string rendering `str(doc.metadata)` of its metadata (the engine only ever
uses the metadata through that rendering). -/
structure Passage where
  content : String
  metaStr : String
deriving DecidableEq

/-- The dict returned by `get_solution`. -/
structure SolutionResult where
  answer : String
  source_documents : List Passage
deriving DecidableEq

/-- Python word character for `\b` (ASCII fragment): letter, digit or underscore. -/
def wordChar (c : Char) : Bool :=
  c.isAlpha || c.isDigit || c == '_'

/-- The trailing `\b` test: the next unconsumed character, if any, must
not be a word character. -/
def boundaryOK : List Char → Bool
  | [] => true
  | c :: _ => !wordChar c

/-- Attempted regex match of `[A-Za-z]+-?\d+\b` at the head of `cs`
(the word boundary *before* `cs` is checked by the caller).  Returns the
matched token and the unconsumed remainder.  Greedy `[A-Za-z]+` and `\d+`
with the trailing `\b` leave no room for backtracking: the letter run and
the digit run must be maximal and the character after the digits must not
be a word character. -/
def matchTok (cs : List Char) : Option (List Char × List Char) :=
  let ls := cs.takeWhile Char.isAlpha
  if ls.isEmpty then none
  else
    match cs.dropWhile Char.isAlpha with
    | [] => none
    | c1 :: r2 =>
      if c1 = '-' then
        let ds := r2.takeWhile Char.isDigit
        if ds.isEmpty then none
        else if boundaryOK (r2.dropWhile Char.isDigit) then
          some (ls ++ '-' :: ds, r2.dropWhile Char.isDigit)
        else none
      else
        let ds := (c1 :: r2).takeWhile Char.isDigit
        if ds.isEmpty then none
        else if boundaryOK ((c1 :: r2).dropWhile Char.isDigit) then
          some (ls ++ ds, (c1 :: r2).dropWhile Char.isDigit)
        else none

/-- Left-to-right scan of `re.findall`: at every position that is a word
boundary (previous character not a word character) and starts with a
letter, try the pattern; on success emit the match and resume after it,
otherwise advance one character.  `fuel` only bounds the recursion and is
always called with `fuel ≥ length of the list`. -/
def scanCodes : Nat → Bool → List Char → List (List Char)
  | 0, _, _ => []
  | _ + 1, _, [] => []
  | fuel + 1, prevW, c :: cs =>
    if !prevW && c.isAlpha then
      match matchTok (c :: cs) with
      | some (tok, rest) => tok :: scanCodes fuel true rest
      | none => scanCodes fuel (wordChar c) cs
    else
      scanCodes fuel (wordChar c) cs

/-- `NOCEngine._extract_error_codes`: all matches of
`\b[A-Za-z]+-?\d+\b` in order, case preserved. -/
def extract_error_codes (text : String) : List String :=
  (scanCodes (text.toList.length + 1) false text.toList).map List.asString

/-- Code/blob normalization used in `get_solution`:
`.replace("-", "").upper()` — drop every hyphen, upper-case the rest. -/
def normalizeStr (s : String) : String :=
  ((s.toList.filter fun c => c != '-').map Char.toUpper).asString

/-- The normalized search blob of a document:
`(doc.page_content + str(doc.metadata)).replace("-", "").upper()`. -/
def docBlob (d : Passage) : String :=
  normalizeStr (d.content ++ d.metaStr)

/-- Python substring test `needle in hay` (over char lists): does
`needle` occur contiguously in `hay`? -/
def leadsWith : List Char → List Char → Bool
  | [], _ => true
  | _ :: _, [] => false
  | a :: as, b :: bs => a == b && leadsWith as bs

/-- Occurrence of `needle` as a contiguous substring of `hay`. -/
def occursIn (needle : List Char) : List Char → Bool
  | [] => needle.isEmpty
  | b :: bs => leadsWith needle (b :: bs) || occursIn needle bs

/-- Python `code in doc_blob` on strings. -/
def strOccurs (needle hay : String) : Bool :=
  occursIn needle.toList hay.toList

/-- The match test of the rerank loop:
`any(code in doc_blob for code in norm_query_codes)`. -/
def hasQueryCode (normCodes : List String) (d : Passage) : Bool :=
  normCodes.any fun code => strOccurs code (docBlob d)

/-- The `for doc in raw_docs` loop of `get_solution`: split into
`priority_docs` (blob contains some normalized query code) and
`other_docs`, each in original order. -/
def partitionDocs (normCodes : List String) : List Passage → List Passage × List Passage
  | [] => ([], [])
  | d :: ds =>
    let rest := partitionDocs normCodes ds
    if hasQueryCode normCodes d then (d :: rest.1, rest.2) else (rest.1, d :: rest.2)

/-- STEP 2 of `get_solution` (keyword boosting), before the `[:3]` trim:
if the query yields codes, stack the priority documents first; otherwise
pass the raw list through unchanged. -/
def rerank (raw : List Passage) (query : String) : List Passage :=
  let query_codes := extract_error_codes query
  if query_codes.isEmpty then raw
  else
    let norm_query_codes := query_codes.map normalizeStr
    let pr := partitionDocs norm_query_codes raw
    pr.1 ++ pr.2

/-- STEP 3 of `get_solution`: `final_docs = final_docs[:3]`. -/
def finalDocs (raw : List Passage) (query : String) : List Passage :=
  (rerank raw query).take 3

/-- One labeled context chunk of STEP 4:
`f"Context Chunk {i}:\n{doc.page_content}\n"`. -/
def contextChunk (i : Nat) (d : Passage) : String :=
  "Context Chunk " ++ toString i ++ ":\n" ++ d.content ++ "\n"

/-- `context_str = "\n---\n".join(context_parts)` with 1-based labels. -/
def contextStr (docs : List Passage) : String :=
  String.intercalate "\n---\n" ((docs.enumFrom 1).map fun p => contextChunk p.1 p.2)

/-- The grounded prompt of `get_solution` (STEP 4). -/
def ragPrompt (query : String) (docs : List Passage) : String :=
  "\nYou are a Level 3 Field Engineer. \nUse ONLY the context below to answer. \n\nContext: \n"
    ++ contextStr docs
    ++ "\n\nQuestion: " ++ query
    ++ "\n\nIf the answer is not in the context, say \x22Procedure not found in standard operating manual.\x22\n"

/-- The ungrounded prompt of `get_baseline_response`. -/
def baselinePrompt (query : String) : String :=
  "\nYou are a helpful technical support assistant.\nThe user is asking a technical question about a telecom base station.\nQuestion: "
    ++ query ++ "\nProvide a technical resolution step-by-step.\n"

/-- `NOCEngine.get_solution`, with the two external collaborators made
explicit: `retrieved` is the outcome of
`self.vectorstore.similarity_search(query, k=10)` (`Except.error e` models
a raised exception with message `e`), and `generate` is
`self.model.generate_content` as a function of the prompt.  The second
component of the result counts how many times the generator was invoked.
The `try`/`except` of the source becomes the propagation of
`Except.error` into the `"Error processing request: "` result. -/
def get_solution (retrieved : Except String (List Passage))
    (generate : String → Except String String) (query : String) :
    SolutionResult × Nat :=
  match retrieved with
  | .error e => (⟨"Error processing request: " ++ e, []⟩, 0)
  | .ok raw_docs =>
    let final_docs := finalDocs raw_docs query
    if final_docs.isEmpty then
      (⟨"No relevant information found.", []⟩, 0)
    else
      match generate (ragPrompt query final_docs) with
      | .error e => (⟨"Error processing request: " ++ e, []⟩, 1)
      | .ok text => (⟨text, final_docs⟩, 1)

/-- `NOCEngine.get_baseline_response`: pure-LLM path, same
`try`/`except` conversion of failures into an error string. -/
def get_baseline_response (generate : String → Except String String)
    (query : String) : String :=
  match generate (baselinePrompt query) with
  | .error e => "Error generating baseline: " ++ e
  | .ok text => text

/-- `NOCEngine.__init__` credential check: `os.getenv` yields `none`
(variable unset) or a string; Python `if not api_key` raises for `none`
and for the empty string.  A successful initialization carries the key. -/
def initEngine (apiKey : Option String) : Except String String :=
  match apiKey with
  | none => .error "GEMINI_API_KEY not found."
  | some k => if k = "" then .error "GEMINI_API_KEY not found." else .ok k

/-! ### Basic lemmas about the rerank pipeline -/

/-- The rerank loop accumulates exactly the filtered sublists, in order. -/
theorem partitionDocs_eq (nc : List String) (l : List Passage) :
    partitionDocs nc l =
      (l.filter (hasQueryCode nc), l.filter fun d => !hasQueryCode nc d) := by
  induction l with
  | nil => rfl
  | cons d ds ih =>
    simp only [partitionDocs, ih, List.filter_cons]
    cases h : hasQueryCode nc d <;> simp [h]

/-- The match predicate actually used on a given query. -/
def queryMatch (q : String) (d : Passage) : Bool :=
  hasQueryCode ((extract_error_codes q).map normalizeStr) d

/-- With codes present, the pre-truncation rerank is the stable partition. -/
theorem rerank_eq_of_codes {q : String} (h : extract_error_codes q ≠ [])
    (raw : List Passage) :
    rerank raw q = raw.filter (queryMatch q) ++ raw.filter fun d => !queryMatch q d := by
  simp only [rerank, List.isEmpty_iff, h, if_false, partitionDocs_eq]
  rfl

/-- With no codes, the pre-truncation rerank is the identity. -/
theorem rerank_eq_of_no_codes {q : String} (h : extract_error_codes q = [])
    (raw : List Passage) : rerank raw q = raw := by
  simp [rerank, h]

/-- The rerank step permutes the raw list (in particular it keeps its length). -/
theorem rerank_perm (raw : List Passage) (q : String) : List.Perm (rerank raw q) raw := by
  by_cases h : extract_error_codes q = []
  · rw [rerank_eq_of_no_codes h]
  · rw [rerank_eq_of_codes h]
    exact List.filter_append_perm _ raw

theorem rerank_length (raw : List Passage) (q : String) :
    (rerank raw q).length = raw.length :=
  (rerank_perm raw q).length_eq

theorem rerank_nil (q : String) : rerank [] q = [] := by
  by_cases h : extract_error_codes q = []
  · exact rerank_eq_of_no_codes h []
  · rw [rerank_eq_of_codes h]; rfl

theorem finalDocs_nil (q : String) : finalDocs [] q = [] := by
  simp [finalDocs, rerank_nil]

/-- In a concatenation of an all-`p` block and a no-`p` block, any position
whose element satisfies `p` lies in the first block; hence every earlier
position also satisfies `p`. -/
theorem getD_partition {α : Type} {p : α → Bool} {A B : List α} (dflt : α)
    (hA : ∀ x ∈ A, p x = true) (hB : ∀ x ∈ B, p x = false)
    (i j : Nat) (hij : i < j) (hj : j < (A ++ B).length)
    (h : p ((A ++ B).getD j dflt) = true) :
    p ((A ++ B).getD i dflt) = true := by
  have hjA : j < A.length := by
    by_contra hge
    push_neg at hge
    have hjB : j - A.length < B.length := by
      simp only [List.length_append] at hj; omega
    have hget : (A ++ B).getD j dflt = B.getD (j - A.length) dflt := by
      simp [List.getD_eq_getElem?_getD, List.getElem?_append_right hge]
    rw [hget, List.getD_eq_getElem?_getD, List.getElem?_eq_getElem hjB] at h
    have := hB _ (List.getElem_mem hjB)
    simp [this] at h
  have hiA : i < A.length := Nat.lt_trans hij hjA
  have hget : (A ++ B).getD i dflt = A.getD i dflt := by
    simp [List.getD_eq_getElem?_getD, List.getElem?_append_left hiA]
  rw [hget, List.getD_eq_getElem?_getD, List.getElem?_eq_getElem hiA]
  exact hA _ (List.getElem_mem hiA)

/-- Dummy passage used only as the default value of positional lookups. -/
def noPassage : Passage := ⟨"", ""⟩

/-- Small sample passage builder for concrete checks. -/
def mkPassage (s : String) : Passage := ⟨s, ""⟩

/-! ### C2 — identity pass-through when no codes are extracted -/

/-- C2 (counterexample): with no extracted codes but four retrieved
passages, the list handed to the prompt builder has only three entries, so
it is not element-for-element equal to the raw list. -/
theorem rerank_identity_counterexample :
    extract_error_codes "please help" = [] ∧
    finalDocs [mkPassage "a", mkPassage "b", mkPassage "c", mkPassage "d"] "please help"
      ≠ [mkPassage "a", mkPassage "b", mkPassage "c", mkPassage "d"] := by
  constructor
  · rfl
  · decide

/-- C2 (amended): with no extracted codes the reorder step returns the raw
list unchanged, the final output is the raw list cut to its first three
entries, and full identity holds exactly when the raw list has at most
three entries. -/
theorem rerank_identity_truncated : ∀ (raw : List Passage) (q : String),
    extract_error_codes q = [] →
    rerank raw q = raw ∧ finalDocs raw q = raw.take 3 ∧
      (raw.length ≤ 3 → finalDocs raw q = raw) := by
  intro raw q h
  have h1 : rerank raw q = raw := rerank_eq_of_no_codes h raw
  refine ⟨h1, ?_, ?_⟩
  · simp [finalDocs, h1]
  · intro hlen
    simp [finalDocs, h1, List.take_of_length_le hlen]

/-- C2 (witness for the amended theorem). -/
theorem rerank_identity_truncated_witness :
    rerank [mkPassage "x"] "please help" = [mkPassage "x"] := by
  have h : extract_error_codes "please help" = [] := rfl
  exact (rerank_identity_truncated [mkPassage "x"] "please help" h).1

/-! ### C5 — truncation length -/

/-- The final list always has length `min 3 (length of the raw list)`. -/
theorem finalDocs_len (raw : List Passage) (q : String) :
    (finalDocs raw q).length = min 3 raw.length := by
  simp [finalDocs, List.length_take, rerank_length]

/-- C5: the final list has length `min 3 (length of the raw list)`; when
fewer than three passages were retrieved, every retrieved passage appears
in the final list. -/
theorem finalDocs_length : ∀ (raw : List Passage) (q : String),
    (finalDocs raw q).length = min 3 raw.length ∧
      (raw.length ≤ 3 → ∀ d ∈ raw, d ∈ finalDocs raw q) := by
  intro raw q
  constructor
  · exact finalDocs_len raw q
  · intro hlen d hd
    have hr : (rerank raw q).length ≤ 3 := by rw [rerank_length]; exact hlen
    have : finalDocs raw q = rerank raw q := by
      simp [finalDocs, List.take_of_length_le hr]
    rw [this]
    exact ((rerank_perm raw q).mem_iff).mpr hd

/-- C5 (witness). -/
theorem finalDocs_length_witness :
    (finalDocs [mkPassage "a", mkPassage "b"] "zz").length = min 3 2 ∧
      mkPassage "a" ∈ finalDocs [mkPassage "a", mkPassage "b"] "zz" := by
  refine ⟨(finalDocs_length [mkPassage "a", mkPassage "b"] "zz").1, ?_⟩
  exact (finalDocs_length [mkPassage "a", mkPassage "b"] "zz").2 (by decide)
    (mkPassage "a") (by decide)

/-! ### C7 — empty passage list short-circuits generation -/

/-- C7: when the post-rerank list is empty the composer answers with the
fixed not-found message, an empty supporting list and zero generator
invocations; in particular an empty retrieval does so. -/
theorem empty_docs_no_generation : ∀ (q : String) (g : String → Except String String),
    (∀ docs : List Passage, finalDocs docs q = [] →
      get_solution (.ok docs) g q = (⟨"No relevant information found.", []⟩, 0)) ∧
    get_solution (.ok []) g q = (⟨"No relevant information found.", []⟩, 0) := by
  intro q g
  have key : ∀ docs : List Passage, finalDocs docs q = [] →
      get_solution (.ok docs) g q = (⟨"No relevant information found.", []⟩, 0) := by
    intro docs h
    simp [get_solution, h]
  exact ⟨key, key [] (finalDocs_nil q)⟩

/-- C7 (witness). -/
theorem empty_docs_no_generation_witness :
    get_solution (.ok []) (fun _ => .ok "ignored") "any query"
      = (⟨"No relevant information found.", []⟩, 0) :=
  (empty_docs_no_generation "any query" (fun _ => .ok "ignored")).2

/-- Any list is a leading block of itself followed by anything. -/
theorem leadsWith_self_append : ∀ m rest : List Char, leadsWith m (m ++ rest) = true := by
  intro m rest
  induction m with
  | nil => rfl
  | cons x xs ih => simp [leadsWith, ih]

/-- A list occurs within anything that ends with it. -/
theorem occursIn_append_left : ∀ pre l : List Char, occursIn l (pre ++ l) = true := by
  intro pre l
  induction pre with
  | nil =>
    cases l with
    | nil => rfl
    | cons c cs =>
      have h := leadsWith_self_append (c :: cs) []
      rw [List.append_nil] at h
      simp [occursIn, h]
  | cons c cs ih => simp [occursIn, ih]

/-! ### C8 — failures are contained, never propagated -/

/-- C8: a failed retrieval and a failed generation both produce a result
whose answer starts with the fixed marker and carries the failure message,
with no supporting passages; the baseline path converts failures the same
way.  The last conjunct restates the marker/description containment
explicitly. -/
theorem failure_containment :
    (∀ (e q : String) (g : String → Except String String),
      get_solution (.error e) g q = (⟨"Error processing request: " ++ e, []⟩, 0)) ∧
    (∀ (docs : List Passage) (q e : String), finalDocs docs q ≠ [] →
      get_solution (.ok docs) (fun _ => .error e) q
        = (⟨"Error processing request: " ++ e, []⟩, 1)) ∧
    (∀ e q : String,
      get_baseline_response (fun _ => .error e) q = "Error generating baseline: " ++ e) ∧
    (∀ (e q : String) (g : String → Except String String),
      leadsWith "Error processing request: ".toList
          ((get_solution (.error e) g q).1.answer).toList = true ∧
      strOccurs e ((get_solution (.error e) g q).1.answer) = true) := by
  refine ⟨?_, ?_, ?_, ?_⟩
  · intro e q g; rfl
  · intro docs q e h
    simp [get_solution, List.isEmpty_iff, h]
  · intro e q; rfl
  · intro e q g
    constructor
    · show leadsWith "Error processing request: ".toList
        ("Error processing request: " ++ e).toList = true
      simp only [String.toList, String.data_append]
      exact leadsWith_self_append _ _
    · show occursIn e.toList ("Error processing request: " ++ e).toList = true
      simp only [String.toList, String.data_append]
      exact occursIn_append_left _ _

/-- C8 (witness): the retrieval-failure scenario from the test suite. -/
theorem failure_containment_witness :
    get_solution (.error "DB Connection Failed") (fun _ => .ok "unused") "S-304"
        = (⟨"Error processing request: DB Connection Failed", []⟩, 0) ∧
      get_baseline_response (fun _ => .error "quota") "q"
        = "Error generating baseline: quota" := by
  refine ⟨?_, failure_containment.2.2.1 "quota" "q"⟩
  have h := failure_containment.1 "DB Connection Failed" "S-304" (fun _ => .ok "unused")
  simpa using h

/-! ### C9 — missing credential is fatal at construction -/

/-- C9: with the credential absent (unset variable, or set to the empty
string, which Python truthiness also rejects) initialization raises and
never yields an engine. -/
theorem init_requires_api_key : ∀ key : Option String,
    key = none ∨ key = some "" →
    initEngine key = .error "GEMINI_API_KEY not found." ∧
      ∀ s, initEngine key ≠ .ok s := by
  intro key h
  have herr : initEngine key = .error "GEMINI_API_KEY not found." := by
    rcases h with h | h <;> subst h <;> rfl
  exact ⟨herr, fun s hok => by rw [herr] at hok; exact Except.noConfusion hok⟩

/-- C9 (witness). -/
theorem init_requires_api_key_witness :
    initEngine none = .error "GEMINI_API_KEY not found." :=
  (init_requires_api_key none (Or.inl rfl)).1

/-! ### C10 — not-found iff empty retrieval; bounded, duplicate-free support -/

/-- The error answer can never collide with the fixed not-found answer. -/
theorem err_ne_noinfo (e : String) :
    "Error processing request: " ++ e ≠ "No relevant information found." := by
  intro h
  have h2 := congrArg (fun s : String => s.data.take 1) h
  simp only [String.data_append] at h2
  rw [List.take_append_of_le_length (by decide)] at h2
  exact absurd h2 (by decide)

/-- C10: the fixed not-found result is returned exactly when the retriever
returned no passages; the partition step preserves the passage count; and
a non-empty retrieval always supports the prompt with one to three
passages, no passage appearing more often than it was retrieved. -/
theorem solution_invariants :
    ∀ (docs : List Passage) (g : String → Except String String) (q : String),
    ((get_solution (.ok docs) g q).1 = ⟨"No relevant information found.", []⟩ ↔ docs = []) ∧
    (rerank docs q).length = docs.length ∧
    (docs ≠ [] →
      1 ≤ (finalDocs docs q).length ∧ (finalDocs docs q).length ≤ 3 ∧
      ∀ p : Passage, (finalDocs docs q).count p ≤ docs.count p) := by
  intro docs g q
  refine ⟨⟨?_, ?_⟩, rerank_length docs q, ?_⟩
  · intro h
    by_contra hne
    have hfd : finalDocs docs q ≠ [] := by
      intro hnil
      have hlen := finalDocs_len docs q
      rw [hnil] at hlen
      simp only [List.length_nil] at hlen
      have hpos : 0 < docs.length := List.length_pos.mpr hne
      omega
    rw [show get_solution (.ok docs) g q
        = (if (finalDocs docs q).isEmpty then
            (⟨"No relevant information found.", []⟩, 0)
          else
            match g (ragPrompt q (finalDocs docs q)) with
            | .error e => (⟨"Error processing request: " ++ e, []⟩, 1)
            | .ok text => (⟨text, finalDocs docs q⟩, 1)) from rfl] at h
    rw [if_neg (by simpa [List.isEmpty_iff] using hfd)] at h
    cases hg : g (ragPrompt q (finalDocs docs q)) with
    | error e =>
      rw [hg] at h
      exact err_ne_noinfo e (congrArg SolutionResult.answer h)
    | ok text =>
      rw [hg] at h
      exact hfd (congrArg SolutionResult.source_documents h)
  · intro h
    subst h
    simp [get_solution, finalDocs_nil]
  · intro hne
    have hlen := finalDocs_len docs q
    have hpos : 0 < docs.length := List.length_pos.mpr hne
    refine ⟨by omega, by omega, ?_⟩
    intro p
    have h1 : (finalDocs docs q).count p ≤ (rerank docs q).count p :=
      (List.take_sublist 3 (rerank docs q)).count_le p
    have h2 : (rerank docs q).count p = docs.count p := (rerank_perm docs q).count_eq p
    omega

/-- C10 (witness). -/
theorem solution_invariants_witness :
    ((get_solution (.ok [mkPassage "w"]) (fun _ => .ok "ans") "hi").1
        = ⟨"No relevant information found.", []⟩ ↔ ([mkPassage "w"] : List Passage) = []) ∧
      1 ≤ (finalDocs [mkPassage "w"] "hi").length := by
  have h := solution_invariants [mkPassage "w"] (fun _ => .ok "ans") "hi"
  exact ⟨h.1, (h.2.2 (by decide)).1⟩

/-! ### C1 — stable partition, surviving the final truncation -/

/-- C1: with a non-empty extracted-code set, the final list is exactly the
matching passages (in retrieval order) followed by the non-matching
passages (in retrieval order), truncated to three; each group of the final
list is an initial segment of the corresponding filtered raw list, and
every matching passage precedes every non-matching one. -/
theorem rerank_stable_partition : ∀ (raw : List Passage) (q : String),
    extract_error_codes q ≠ [] →
    (finalDocs raw q
      = (raw.filter (queryMatch q)).take 3
        ++ (raw.filter fun d => !queryMatch q d).take
            (3 - (raw.filter (queryMatch q)).length)) ∧
    ((finalDocs raw q).filter (queryMatch q) = (raw.filter (queryMatch q)).take 3) ∧
    ((finalDocs raw q).filter (fun d => !queryMatch q d)
      = (raw.filter fun d => !queryMatch q d).take
          (3 - (raw.filter (queryMatch q)).length)) ∧
    (∀ i j : Nat, i < j → j < (finalDocs raw q).length →
      queryMatch q ((finalDocs raw q).getD j noPassage) = true →
      queryMatch q ((finalDocs raw q).getD i noPassage) = true) := by
  intro raw q h
  have hA : ∀ x ∈ (raw.filter (queryMatch q)).take 3, queryMatch q x = true := by
    intro x hx
    exact (List.mem_filter.mp (List.take_subset _ _ hx)).2
  have hB : ∀ x ∈ (raw.filter fun d => !queryMatch q d).take
      (3 - (raw.filter (queryMatch q)).length), queryMatch q x = false := by
    intro x hx
    have := (List.mem_filter.mp (List.take_subset _ _ hx)).2
    simpa using this
  have heq : finalDocs raw q
      = (raw.filter (queryMatch q)).take 3
        ++ (raw.filter fun d => !queryMatch q d).take
            (3 - (raw.filter (queryMatch q)).length) := by
    rw [finalDocs, rerank_eq_of_codes h, List.take_append_eq_append_take]
  have hfA : ((raw.filter (queryMatch q)).take 3).filter (queryMatch q)
      = (raw.filter (queryMatch q)).take 3 :=
    List.filter_eq_self.mpr hA
  have hfB : ((raw.filter fun d => !queryMatch q d).take
      (3 - (raw.filter (queryMatch q)).length)).filter (queryMatch q) = [] :=
    List.filter_eq_nil_iff.mpr fun a ha => by simp [hB a ha]
  have hgA : ((raw.filter (queryMatch q)).take 3).filter (fun d => !queryMatch q d) = [] :=
    List.filter_eq_nil_iff.mpr fun a ha => by simp [hA a ha]
  have hgB : ((raw.filter fun d => !queryMatch q d).take
        (3 - (raw.filter (queryMatch q)).length)).filter (fun d => !queryMatch q d)
      = (raw.filter fun d => !queryMatch q d).take
          (3 - (raw.filter (queryMatch q)).length) :=
    List.filter_eq_self.mpr fun a ha => by simp [hB a ha]
  refine ⟨heq, ?_, ?_, ?_⟩
  · rw [heq, List.filter_append, hfA, hfB, List.append_nil]
  · rw [heq, List.filter_append, hgA, hgB, List.nil_append]
  · intro i j hij hj hpj
    rw [heq] at hj hpj ⊢
    exact getD_partition noPassage hA hB i j hij hj hpj

/-- Sample passage mirroring the test fixture for code S-304. -/
def samplePS : Passage :=
  ⟨"Software Alarms - S-304\n\nFiber Link Degradation: Signal loss detected.",
   "Category: Software Alarms, Error_Code: S-304"⟩

/-- Sample passage mirroring the test fixture for code E-101. -/
def samplePE : Passage :=
  ⟨"Hardware Alarms - E-101\n\nPower supply issue detected.",
   "Category: Hardware Alarms, Error_Code: E-101"⟩

/-- C1 (witness): retrieval order `[E-101, S-304]` with query `s304` puts
the S-304 passage first. -/
theorem rerank_stable_partition_witness :
    extract_error_codes "s304" ≠ [] ∧
    finalDocs [samplePE, samplePS] "s304" = [samplePS, samplePE] ∧
    finalDocs [samplePE, samplePS] "s304"
      = ([samplePE, samplePS].filter (queryMatch "s304")).take 3
        ++ ([samplePE, samplePS].filter fun d => !queryMatch "s304" d).take
            (3 - ([samplePE, samplePS].filter (queryMatch "s304")).length) := by
  refine ⟨by decide, by decide, ?_⟩
  exact (rerank_stable_partition [samplePE, samplePS] "s304" (by decide)).1

/-! ### C4 — match classification is substring containment on normalized blobs -/

/-- C4: with a non-empty extracted-code set, a passage lands in the
priority group of the loop exactly when its normalized content-plus-
metadata blob contains some normalized query code as a substring, and in
the other group exactly otherwise; the pre-truncation rerank output is
priority group then other group. -/
theorem match_classification : ∀ (raw : List Passage) (q : String) (d : Passage),
    extract_error_codes q ≠ [] →
    (d ∈ (partitionDocs ((extract_error_codes q).map normalizeStr) raw).1 ↔
      d ∈ raw ∧ ∃ c ∈ extract_error_codes q,
        strOccurs (normalizeStr c) (docBlob d) = true) ∧
    (d ∈ (partitionDocs ((extract_error_codes q).map normalizeStr) raw).2 ↔
      d ∈ raw ∧ ¬ ∃ c ∈ extract_error_codes q,
        strOccurs (normalizeStr c) (docBlob d) = true) ∧
    rerank raw q
      = (partitionDocs ((extract_error_codes q).map normalizeStr) raw).1
        ++ (partitionDocs ((extract_error_codes q).map normalizeStr) raw).2 := by
  intro raw q d h
  have hmatch : ∀ x : Passage,
      hasQueryCode ((extract_error_codes q).map normalizeStr) x = true ↔
        ∃ c ∈ extract_error_codes q, strOccurs (normalizeStr c) (docBlob x) = true := by
    intro x
    simp only [hasQueryCode, List.any_eq_true, List.mem_map]
    constructor
    · rintro ⟨code, ⟨c, hc, rfl⟩, hocc⟩
      exact ⟨c, hc, hocc⟩
    · rintro ⟨c, hc, hocc⟩
      exact ⟨normalizeStr c, ⟨c, hc, rfl⟩, hocc⟩
  rw [partitionDocs_eq]
  refine ⟨?_, ?_, ?_⟩
  · simp only [List.mem_filter, hmatch]
  · simp only [List.mem_filter, Bool.not_eq_eq_eq_not, Bool.not_true,
      ← Bool.not_eq_true, hmatch]
  · rw [rerank_eq_of_codes h]
    rfl

/-- C4 (witness): for the query `s304` the S-304 fixture passage is
classified as a match over the fixture list. -/
theorem match_classification_witness :
    samplePS ∈ (partitionDocs ((extract_error_codes "s304").map normalizeStr)
      [samplePE, samplePS]).1 :=
  ((match_classification [samplePE, samplePS] "s304" samplePS (by decide)).1).mpr
    ⟨by decide, ⟨"s304", by decide, by decide⟩⟩

/-! ### C6 — normalization is idempotent and conflates equivalent forms -/

/-- `Char.ofNat` of a valid codepoint decodes back to the same number. -/
theorem toNat_ofNat_of_valid {n : Nat} (h : n.isValidChar) :
    (Char.ofNat n).toNat = n := by
  rw [Char.ofNat, dif_pos h]
  rfl

/-- ASCII upper-casing is idempotent. -/
theorem toUpper_idem (c : Char) : c.toUpper.toUpper = c.toUpper := by
  show Char.toUpper c.toUpper = c.toUpper
  unfold Char.toUpper
  by_cases h : c.toNat ≥ 97 ∧ c.toNat ≤ 122
  · rw [if_pos h]
    have hv : Nat.isValidChar (c.toNat - 32) := Or.inl (by omega)
    have ht : (Char.ofNat (c.toNat - 32)).toNat = c.toNat - 32 :=
      toNat_ofNat_of_valid hv
    rw [if_neg (by rw [ht]; omega)]
  · rw [if_neg h, if_neg h]

/-- Upper-casing never produces a hyphen from a non-hyphen. -/
theorem toUpper_ne_hyphen {c : Char} (h : c ≠ '-') : c.toUpper ≠ '-' := by
  unfold Char.toUpper
  by_cases hc : c.toNat ≥ 97 ∧ c.toNat ≤ 122
  · rw [if_pos hc]
    intro heq
    have hv : Nat.isValidChar (c.toNat - 32) := Or.inl (by omega)
    have ht : (Char.ofNat (c.toNat - 32)).toNat = c.toNat - 32 :=
      toNat_ofNat_of_valid hv
    have h45 : ('-' : Char).toNat = 45 := rfl
    rw [heq, h45] at ht
    omega
  · rw [if_neg hc]
    exact h

/-- C6: normalization (drop hyphens, upper-case) is idempotent, and the
two textual forms `S-304` and `s304` normalize to the same value `S304`. -/
theorem normalize_idempotent :
    (∀ s : String, normalizeStr (normalizeStr s) = normalizeStr s) ∧
    normalizeStr "S-304" = "S304" ∧ normalizeStr "s304" = "S304" := by
  refine ⟨?_, rfl, rfl⟩
  intro s
  unfold normalizeStr
  rw [List.toList_asString]
  congr 1
  have hfix : ((s.toList.filter fun c => c != '-').map Char.toUpper).filter
      (fun c => c != '-') = (s.toList.filter fun c => c != '-').map Char.toUpper := by
    rw [List.filter_eq_self]
    intro a ha
    obtain ⟨b, hb, rfl⟩ := List.mem_map.mp ha
    have hbne : b ≠ '-' := by
      have := (List.mem_filter.mp hb).2
      simpa using this
    simpa using toUpper_ne_hyphen hbne
  rw [hfix, List.map_map]
  apply List.map_congr_left
  intro x _
  exact toUpper_idem x

/-! ### C3 — characterization of the error-code extractor -/

/-- UInt32 order transfers to the underlying naturals. -/
theorem ule_toNat {a b : UInt32} (h : a ≤ b) : a.toNat ≤ b.toNat := by
  rw [UInt32.le_def, BitVec.le_def] at h
  exact h

/-- Codepoint bounds of a digit character. -/
theorem isDigit_toNat {c : Char} (h : c.isDigit = true) :
    48 ≤ c.toNat ∧ c.toNat ≤ 57 := by
  simp only [Char.isDigit, Bool.and_eq_true, decide_eq_true_eq] at h
  obtain ⟨h1, h2⟩ := h
  exact ⟨ule_toNat h1, ule_toNat h2⟩

/-- Codepoint bounds of a letter character. -/
theorem isAlpha_toNat {c : Char} (h : c.isAlpha = true) :
    (65 ≤ c.toNat ∧ c.toNat ≤ 90) ∨ (97 ≤ c.toNat ∧ c.toNat ≤ 122) := by
  simp only [Char.isAlpha, Char.isUpper, Char.isLower, Bool.or_eq_true,
    Bool.and_eq_true, decide_eq_true_eq] at h
  rcases h with ⟨h1, h2⟩ | ⟨h1, h2⟩
  · exact Or.inl ⟨ule_toNat h1, ule_toNat h2⟩
  · exact Or.inr ⟨ule_toNat h1, ule_toNat h2⟩

/-- Letters and digits are disjoint character classes. -/
theorem isDigit_not_isAlpha {c : Char} (h : c.isDigit = true) :
    c.isAlpha = false := by
  cases ha : c.isAlpha
  · rfl
  · exfalso
    have h1 := isAlpha_toNat ha
    have h2 := isDigit_toNat h
    omega

/-- A digit is not the hyphen. -/
theorem isDigit_ne_hyphen {c : Char} (h : c.isDigit = true) : c ≠ '-' := by
  intro heq
  have hd := isDigit_toNat h
  rw [heq] at hd
  have : ('-' : Char).toNat = 45 := rfl
  omega

/-- A non-word character is neither a letter nor a digit. -/
theorem not_word_facts {c : Char} (h : wordChar c = false) :
    c.isAlpha = false ∧ c.isDigit = false := by
  simp only [wordChar, Bool.or_eq_false_iff] at h
  exact ⟨h.1.1, h.1.2⟩

/-- Letters and digits are word characters. -/
theorem alpha_wordChar {c : Char} (h : c.isAlpha = true) : wordChar c = true := by
  simp [wordChar, h]

theorem digit_wordChar {c : Char} (h : c.isDigit = true) : wordChar c = true := by
  simp [wordChar, h]

/-- The shape matched by `\b[A-Za-z]+-?\d+\b` (the token itself, without
the context conditions): a non-empty letter run, an optional single
hyphen, a non-empty digit run. -/
def isCodeToken (cs : List Char) : Prop :=
  ∃ ls hy ds, cs = ls ++ hy ++ ds ∧ ls ≠ [] ∧ ds ≠ [] ∧
    (∀ c ∈ ls, c.isAlpha = true) ∧ (∀ c ∈ ds, c.isDigit = true) ∧
    (hy = [] ∨ hy = ['-'])

/-- A code token starts with a letter. -/
theorem isCodeToken_head {t : List Char} (h : isCodeToken t) :
    ∃ a t1, t = a :: t1 ∧ a.isAlpha = true := by
  obtain ⟨ls, hy, ds, rfl, hls, _, hlsA, _, _⟩ := h
  cases ls with
  | nil => exact absurd rfl hls
  | cons a l => exact ⟨a, l ++ hy ++ ds, by simp, hlsA a (by simp)⟩

/-- A code token ends with a digit. -/
theorem isCodeToken_last {t : List Char} (h : isCodeToken t) :
    ∃ d, t.getLast? = some d ∧ d.isDigit = true := by
  obtain ⟨ls, hy, ds, rfl, _, hds, _, hdsD, _⟩ := h
  cases hd : ds.getLast? with
  | none => exact absurd (List.getLast?_eq_none_iff.mp hd) hds
  | some d =>
    refine ⟨d, ?_, ?_⟩
    · simp [List.getLast?_append, hd]
    · have : d ∈ ds := List.mem_of_getLast?_eq_some hd
      exact hdsD d this

/-- Every character of a code token is a letter, a digit, or the hyphen. -/
theorem isCodeToken_mem {t : List Char} (h : isCodeToken t) :
    ∀ c ∈ t, c.isAlpha = true ∨ c.isDigit = true ∨ c = '-' := by
  obtain ⟨ls, hy, ds, rfl, _, _, hlsA, hdsD, hhy⟩ := h
  intro c hc
  rcases List.mem_append.mp hc with hc1 | hc2
  · rcases List.mem_append.mp hc1 with hll | hhy2
    · exact Or.inl (hlsA c hll)
    · rcases hhy with rfl | rfl
      · simp at hhy2
      · simp at hhy2
        exact Or.inr (Or.inr hhy2)
  · exact Or.inr (Or.inl (hdsD c hc2))

/-- Soundness of one match attempt: a successful match yields a
well-shaped token, splits the input exactly, and leaves a right word
boundary. -/
theorem matchTok_sound {cs t rest : List Char}
    (hm : matchTok cs = some (t, rest)) :
    isCodeToken t ∧ cs = t ++ rest ∧ boundaryOK rest = true := by
  simp only [matchTok] at hm
  split at hm
  · exact absurd hm (by simp)
  · rename_i hlsne
    split at hm
    · exact absurd hm (by simp)
    · rename_i c1 r2 heq
      have hls : cs.takeWhile Char.isAlpha ≠ [] := by
        simpa [List.isEmpty_iff] using hlsne
      have hlsA : ∀ c ∈ cs.takeWhile Char.isAlpha, c.isAlpha = true := by
        intro c hc
        exact List.all_eq_true.mp List.all_takeWhile c hc
      split at hm
      · rename_i hc1
        subst hc1
        split at hm
        · exact absurd hm (by simp)
        · rename_i hdsne
          split at hm
          · rename_i hbd
            injection hm with hm1
            injection hm1 with ht hrest
            subst ht
            subst hrest
            have hds : r2.takeWhile Char.isDigit ≠ [] := by
              simpa [List.isEmpty_iff] using hdsne
            refine ⟨⟨cs.takeWhile Char.isAlpha, ['-'], r2.takeWhile Char.isDigit,
              by simp, hls, hds, hlsA, ?_, Or.inr rfl⟩, ?_, hbd⟩
            · intro c hc
              exact List.all_eq_true.mp List.all_takeWhile c hc
            · have h1 : cs = cs.takeWhile Char.isAlpha ++ ('-' :: r2) := by
                rw [← heq, List.takeWhile_append_dropWhile]
              have h2 : r2 = r2.takeWhile Char.isDigit ++ r2.dropWhile Char.isDigit :=
                (List.takeWhile_append_dropWhile _ _).symm
              conv_lhs => rw [h1]
              conv_lhs => rw [h2]
              simp
          · exact absurd hm (by simp)
      · rename_i hc1
        split at hm
        · exact absurd hm (by simp)
        · rename_i hdsne
          split at hm
          · rename_i hbd
            injection hm with hm1
            injection hm1 with ht hrest
            subst ht
            subst hrest
            have hds : (c1 :: r2).takeWhile Char.isDigit ≠ [] := by
              simpa [List.isEmpty_iff] using hdsne
            refine ⟨⟨cs.takeWhile Char.isAlpha, [], (c1 :: r2).takeWhile Char.isDigit,
              by simp, hls, hds, hlsA, ?_, Or.inl rfl⟩, ?_, hbd⟩
            · intro c hc
              exact List.all_eq_true.mp List.all_takeWhile c hc
            · have h1 : cs = cs.takeWhile Char.isAlpha ++ (c1 :: r2) := by
                rw [← heq, List.takeWhile_append_dropWhile]
              have h2 : c1 :: r2
                  = (c1 :: r2).takeWhile Char.isDigit
                    ++ (c1 :: r2).dropWhile Char.isDigit :=
                (List.takeWhile_append_dropWhile _ _).symm
              conv_lhs => rw [h1]
              conv_lhs => rw [h2]
              simp
          · exact absurd hm (by simp)

/-- Every token emitted by the scanner is well shaped. -/
theorem scanCodes_sound : ∀ (fuel : Nat) (prevW : Bool) (cs : List Char)
    (t : List Char), t ∈ scanCodes fuel prevW cs → isCodeToken t := by
  intro fuel
  induction fuel with
  | zero =>
    intro prevW cs t h
    simp [scanCodes] at h
  | succ n ih =>
    intro prevW cs t h
    cases cs with
    | nil => simp [scanCodes] at h
    | cons c cs1 =>
      rw [scanCodes] at h
      by_cases hstart : (!prevW && c.isAlpha) = true
      · rw [if_pos hstart] at h
        cases hmt : matchTok (c :: cs1) with
        | none =>
          rw [hmt] at h
          exact ih _ _ _ h
        | some pr =>
          rw [hmt] at h
          obtain ⟨tok, rest⟩ := pr
          rcases List.mem_cons.mp h with rfl | hmem
          · exact (matchTok_sound hmt).1
          · exact ih _ _ _ hmem
      · rw [if_neg hstart] at h
        exact ih _ _ _ h

/-- At a right word boundary the digit scan stops immediately. -/
theorem digitScan_stop {v : List Char} (hv : boundaryOK v = true) :
    v.takeWhile Char.isDigit = [] ∧ v.dropWhile Char.isDigit = v := by
  cases v with
  | nil => exact ⟨rfl, rfl⟩
  | cons c v1 =>
    have hw : wordChar c = false := by
      simpa [boundaryOK] using hv
    have hd : c.isDigit = false := (not_word_facts hw).2
    exact ⟨by simp [List.takeWhile_cons, hd], by simp [List.dropWhile_cons, hd]⟩

/-- Completeness of one match attempt: a well-shaped token followed by a
right word boundary is matched exactly. -/
theorem matchTok_complete {t v : List Char} (ht : isCodeToken t)
    (hv : boundaryOK v = true) : matchTok (t ++ v) = some (t, v) := by
  obtain ⟨ls, hy, ds, rfl, hls, hds, hlsA, hdsD, hhy⟩ := ht
  obtain ⟨d, ds1, rfl⟩ : ∃ d ds1, ds = d :: ds1 := by
    cases ds with
    | nil => exact absurd rfl hds
    | cons d ds1 => exact ⟨d, ds1, rfl⟩
  have hdd : d.isDigit = true := hdsD d (by simp)
  have hlsA2 : ∀ a ∈ ls, Char.isAlpha a := hlsA
  have hdsD2 : ∀ a ∈ d :: ds1, Char.isDigit a := hdsD
  have hvtake := (digitScan_stop hv).1
  have hvdrop := (digitScan_stop hv).2
  have hD1 : (d :: (ds1 ++ v)).takeWhile Char.isDigit = d :: ds1 := by
    rw [show d :: (ds1 ++ v) = (d :: ds1) ++ v from by simp,
      List.takeWhile_append_of_pos hdsD2, hvtake, List.append_nil]
  have hD2 : (d :: (ds1 ++ v)).dropWhile Char.isDigit = v := by
    rw [show d :: (ds1 ++ v) = (d :: ds1) ++ v from by simp,
      List.dropWhile_append_of_pos hdsD2, hvdrop]
  rcases hhy with rfl | rfl
  · have hshape : (ls ++ [] ++ (d :: ds1)) ++ v = ls ++ (d :: (ds1 ++ v)) := by
      simp
    rw [hshape]
    have hA1 : (ls ++ (d :: (ds1 ++ v))).takeWhile Char.isAlpha = ls := by
      rw [List.takeWhile_append_of_pos hlsA2]
      simp [List.takeWhile_cons, isDigit_not_isAlpha hdd]
    have hA2 : (ls ++ (d :: (ds1 ++ v))).dropWhile Char.isAlpha = d :: (ds1 ++ v) := by
      rw [List.dropWhile_append_of_pos hlsA2]
      simp [List.dropWhile_cons, isDigit_not_isAlpha hdd]
    simp only [matchTok, hA1, hA2, hD1, hD2]
    simp [List.isEmpty_iff, hls, isDigit_ne_hyphen hdd, hv]
  · have hshape : (ls ++ ['-'] ++ (d :: ds1)) ++ v = ls ++ ('-' :: (d :: (ds1 ++ v))) := by
      simp
    rw [hshape]
    have hA1 : (ls ++ ('-' :: (d :: (ds1 ++ v)))).takeWhile Char.isAlpha = ls := by
      rw [List.takeWhile_append_of_pos hlsA2]
      simp [List.takeWhile_cons, show ('-' : Char).isAlpha = false from rfl]
    have hA2 : (ls ++ ('-' :: (d :: (ds1 ++ v)))).dropWhile Char.isAlpha
        = '-' :: (d :: (ds1 ++ v)) := by
      rw [List.dropWhile_append_of_pos hlsA2]
      simp [List.dropWhile_cons, show ('-' : Char).isAlpha = false from rfl]
    simp only [matchTok, hA1, hA2, hD1, hD2]
    simp [List.isEmpty_iff, hls, hv]

/-- A letter is not the hyphen. -/
theorem isAlpha_ne_hyphen {c : Char} (h : c.isAlpha = true) : c ≠ '-' := by
  intro heq
  have ha := isAlpha_toNat h
  rw [heq] at ha
  have : ('-' : Char).toNat = 45 := rfl
  omega

/-- Splitting a list at an element that the right-hand decomposition
does not repeat is unambiguous. -/
theorem split_at_unique {α : Type} {x : α} :
    ∀ (c a b d : List α), a ++ x :: b = c ++ x :: d →
      x ∉ c → x ∉ d → a = c ∧ b = d := by
  intro c
  induction c with
  | nil =>
    intro a b d h hxc hxd
    cases a with
    | nil =>
      simp only [List.nil_append] at h
      injection h with h1 h2
      exact ⟨rfl, h2⟩
    | cons y a1 =>
      simp only [List.cons_append, List.nil_append, List.cons.injEq] at h
      have hx : x ∈ d := by
        rw [← h.2]
        simp
      exact absurd hx hxd
  | cons z c1 ih =>
    intro a b d h hxc hxd
    cases a with
    | nil =>
      simp only [List.nil_append, List.cons_append, List.cons.injEq] at h
      have hx : x ∈ z :: c1 := by
        rw [h.1]
        exact List.mem_cons_self _ _
      exact absurd hx hxc
    | cons y a1 =>
      simp only [List.cons_append, List.cons.injEq] at h
      have hxc1 : x ∉ c1 := fun hm => hxc (List.mem_cons_of_mem _ hm)
      obtain ⟨h3, h4⟩ := ih a1 b d h.2 hxc1 hxd
      exact ⟨by rw [h.1, h3], h4⟩

/-- If the scanner fires a match while still inside the left context `u`
(whose last character is not a word character) and the text continues
with a letter, the match is consumed entirely within `u`, leaving a
non-empty tail of `u`. -/
theorem tok_stays_in_u {u m rest w : List Char}
    (hw : u ++ w = m ++ rest) (hm : isCodeToken m) (hu : u ≠ [])
    (hulast : ∀ c, u.getLast? = some c → wordChar c = false)
    (hwhead : ∃ a, w.head? = some a ∧ a.isAlpha = true) :
    ∃ u3, u = m ++ u3 ∧ u3 ≠ [] ∧ rest = u3 ++ w := by
  by_cases hlen : m.length < u.length
  · have hmu : m = u.take m.length := by
      have h1 : (m ++ rest).take m.length = m := by
        rw [List.take_append_of_le_length (Nat.le_refl _), List.take_length]
      have h2 : (u ++ w).take m.length = u.take m.length :=
        List.take_append_of_le_length (Nat.le_of_lt hlen)
      have h3 : (u ++ w).take m.length = (m ++ rest).take m.length := by rw [hw]
      rw [h2, h1] at h3
      exact h3.symm
    have hudecomp : u = m ++ u.drop m.length := by
      conv_lhs => rw [← List.take_append_drop m.length u]
      rw [← hmu]
    refine ⟨u.drop m.length, hudecomp, ?_, ?_⟩
    · intro hnil
      have := congrArg List.length hnil
      simp only [List.length_drop, List.length_nil] at this
      omega
    · have hcat : m ++ rest = m ++ (u.drop m.length ++ w) := by
        rw [← List.append_assoc, ← hudecomp]
        exact hw.symm
      exact List.append_cancel_left hcat
  · exfalso
    push_neg at hlen
    have hum : u = m.take u.length := by
      have h1 : (u ++ w).take u.length = u := by
        rw [List.take_append_of_le_length (Nat.le_refl _), List.take_length]
      have h2 : (m ++ rest).take u.length = m.take u.length :=
        List.take_append_of_le_length hlen
      have h3 : (u ++ w).take u.length = (m ++ rest).take u.length := by rw [hw]
      rw [h1, h2] at h3
      exact h3
    obtain ⟨lc, hlc⟩ : ∃ lc, u.getLast? = some lc := by
      cases hu2 : u.getLast? with
      | none => exact absurd (List.getLast?_eq_none_iff.mp hu2) hu
      | some lc => exact ⟨lc, rfl⟩
    have hlcw : wordChar lc = false := hulast lc hlc
    obtain ⟨u0, rfl⟩ : ∃ u0, u = u0 ++ [lc] := List.getLast?_eq_some_iff.mp hlc
    rcases Nat.eq_or_lt_of_le hlen with heq | hlt
    · have hueq : u0 ++ [lc] = m := by
        rw [hum, heq, List.take_length]
      obtain ⟨dd, hdd1, hdd2⟩ := isCodeToken_last hm
      rw [← hueq, List.getLast?_concat] at hdd1
      injection hdd1 with hdd3
      rw [← hdd3] at hdd2
      exact absurd (digit_wordChar hdd2) (by simp [hlcw])
    · have hmdecomp : m = (u0 ++ [lc]) ++ m.drop (u0 ++ [lc]).length := by
        conv_lhs => rw [← List.take_append_drop (u0 ++ [lc]).length m]
        rw [← hum]
      set w2 := m.drop (u0 ++ [lc]).length with hw2def
      have hw2ne : w2 ≠ [] := by
        intro hnil
        have := congrArg List.length hnil
        simp only [hw2def, List.length_drop, List.length_nil] at this
        omega
      have hlcm : lc ∈ m := by
        rw [hmdecomp]
        simp
      have hlchy : lc = '-' := by
        rcases isCodeToken_mem hm lc hlcm with ha | hd | hh
        · exact absurd (alpha_wordChar ha) (by simp [hlcw])
        · exact absurd (digit_wordChar hd) (by simp [hlcw])
        · exact hh
      obtain ⟨mls, mhy, mds, hmd, hmls, hmds, hmlsA, hmdsD, hmhy⟩ := hm
      have hnomls : ('-' : Char) ∉ mls := by
        intro hmem
        exact isAlpha_ne_hyphen (hmlsA _ hmem) rfl
      have hnomds : ('-' : Char) ∉ mds := by
        intro hmem
        exact isDigit_ne_hyphen (hmdsD _ hmem) rfl
      have hmhy2 : mhy = ['-'] := by
        rcases hmhy with rfl | rfl
        · exfalso
          rw [hmd, hlchy] at hlcm
          simp only [List.append_nil, List.mem_append] at hlcm
          rcases hlcm with hmem | hmem
          · exact hnomls hmem
          · exact hnomds hmem
        · rfl
      subst hmhy2
      subst hlchy
      have hm2 : m = mls ++ '-' :: mds := by
        rw [hmd]
        simp
      have hsplit2 : u0 ++ '-' :: w2 = mls ++ '-' :: mds := by
        rw [← hm2, hmdecomp]
        simp
      obtain ⟨hu0eq, hw2eq⟩ := split_at_unique mls u0 w2 mds hsplit2 hnomls hnomds
      have hwhw2 : w = w2 ++ rest := by
        have hcat : (u0 ++ ['-']) ++ w = (u0 ++ ['-']) ++ (w2 ++ rest) := by
          rw [hw, hmdecomp]
          simp
        exact List.append_cancel_left hcat
      obtain ⟨a, hahead, haA⟩ := hwhead
      obtain ⟨d0, mds1, rfl⟩ : ∃ d0 mds1, mds = d0 :: mds1 := by
        cases mds with
        | nil => exact absurd rfl hmds
        | cons d0 mds1 => exact ⟨d0, mds1, rfl⟩
      rw [hw2eq] at hwhw2
      rw [hwhw2] at hahead
      simp only [List.cons_append, List.head?_cons] at hahead
      injection hahead with haeq
      rw [← haeq] at haA
      have hd0 : d0.isDigit = true := hmdsD d0 (by simp)
      rw [isDigit_not_isAlpha hd0] at haA
      exact Bool.false_ne_true haA

/-- Completeness of the scan: any well-shaped token flanked by word
boundaries inside the text is emitted. -/
theorem scanCodes_complete :
    ∀ (fuel : Nat) (u : List Char) (prevW : Bool) {t v : List Char},
      isCodeToken t → boundaryOK v = true →
      (u = [] → prevW = false) →
      (∀ c, u.getLast? = some c → wordChar c = false) →
      (u ++ t ++ v).length < fuel →
      t ∈ scanCodes fuel prevW (u ++ t ++ v) := by
  intro fuel
  induction fuel with
  | zero =>
    intro u prevW t v _ _ _ _ hlen
    omega
  | succ n ih =>
    intro u prevW t v ht hv hu0 hulast hlen
    cases u with
    | nil =>
      have hp := hu0 rfl
      subst hp
      obtain ⟨a, t1, hteq, ha⟩ := isCodeToken_head ht
      have hmt : matchTok (t ++ v) = some (t, v) := matchTok_complete ht hv
      rw [show ([] ++ t ++ v : List Char) = t ++ v from by simp]
      rw [hteq] at hmt ⊢
      have hmt2 : matchTok (a :: (t1 ++ v)) = some (a :: t1, v) := by
        rw [show a :: (t1 ++ v) = (a :: t1) ++ v from by simp]
        exact hmt
      rw [show ((a :: t1) ++ v : List Char) = a :: (t1 ++ v) from by simp]
      simp only [scanCodes, Bool.not_false, Bool.true_and, ha, if_pos, hmt2]
      exact List.mem_cons_self _ _
    | cons c u1 =>
      have hu1zero : u1 = [] → wordChar c = false := by
        intro h1
        subst h1
        exact hulast c rfl
      have hu1last : ∀ x, u1.getLast? = some x → wordChar x = false := by
        intro x hx
        apply hulast
        cases u1 with
        | nil => simp at hx
        | cons z zs =>
          rw [List.getLast?_cons_cons]
          exact hx
      have hlen1 : (u1 ++ t ++ v).length < n := by
        simp only [List.cons_append, List.length_cons, List.length_append] at hlen ⊢
        omega
      rw [show ((c :: u1) ++ t ++ v : List Char) = c :: (u1 ++ t ++ v) from by simp]
      by_cases hstart : (!prevW && c.isAlpha) = true
      · rw [scanCodes, if_pos hstart]
        cases hmt : matchTok (c :: (u1 ++ t ++ v)) with
        | none =>
          exact ih u1 (wordChar c) ht hv hu1zero hu1last hlen1
        | some pr =>
          obtain ⟨m, rest⟩ := pr
          obtain ⟨hmtok, hmsplit, _⟩ := matchTok_sound hmt
          have hwform : (c :: u1) ++ (t ++ v) = m ++ rest := by
            simpa using hmsplit
          obtain ⟨a, t1, hteq, ha⟩ := isCodeToken_head ht
          have hwhead : ∃ a2, (t ++ v).head? = some a2 ∧ a2.isAlpha = true := by
            refine ⟨a, ?_, ha⟩
            rw [hteq]
            simp
          obtain ⟨u3, hu3, hu3ne, hrest⟩ :=
        tok_stays_in_u hwform hmtok (by simp) hulast hwhead
          apply List.mem_cons_of_mem
          have hrest2 : rest = u3 ++ t ++ v := by
            rw [hrest, List.append_assoc]
          rw [hrest2]
          have hu3last : ∀ x, u3.getLast? = some x → wordChar x = false := by
            intro x hx
            apply hulast
            rw [hu3, List.getLast?_append, hx]
            rfl
          have hmlen : 1 ≤ m.length := by
            obtain ⟨a2, m1, hmeq, _⟩ := isCodeToken_head hmtok
            rw [hmeq]
            simp
          have hu3len : u3.length ≤ u1.length := by
            have := congrArg List.length hu3
            simp only [List.length_cons, List.length_append] at this
            omega
          have hlen3 : (u3 ++ t ++ v).length < n := by
            simp only [List.length_append] at hlen1 ⊢
            omega
          exact ih u3 true ht hv (fun h => absurd h hu3ne) hu3last hlen3
      · rw [scanCodes, if_neg hstart]
        exact ih u1 (wordChar c) ht hv hu1zero hu1last hlen1

/-- C3: the extractor emits exactly the `letters, optional hyphen,
digits` tokens bounded by word edges.  Soundness: every emitted string has
that shape.  Completeness: every such token occurring in the text flanked
by word boundaries (or the ends of the text) is emitted, case preserved.
The concrete examples pin down ordering, case preservation, and the
empty-sequence (not error) result. -/
theorem extract_error_codes_spec :
    (∀ (s t : String), t ∈ extract_error_codes s → isCodeToken t.toList) ∧
    (∀ (s : String) (u t v : List Char),
      s.toList = u ++ t ++ v → isCodeToken t →
      (∀ c, u.getLast? = some c → wordChar c = false) →
      (∀ c, v.head? = some c → wordChar c = false) →
      t.asString ∈ extract_error_codes s) ∧
    extract_error_codes "error S-304 and E101" = ["S-304", "E101"] ∧
    extract_error_codes "error s304" = ["s304"] ∧
    extract_error_codes "just some words" = [] := by
  refine ⟨?_, ?_, rfl, rfl, rfl⟩
  · intro s t hmem
    obtain ⟨l, hl, rfl⟩ := List.mem_map.mp hmem
    rw [List.toList_asString]
    exact scanCodes_sound _ _ _ l hl
  · intro s u t v hdecomp ht hleft hright
    have hbd : boundaryOK v = true := by
      cases v with
      | nil => rfl
      | cons c v1 => simp [boundaryOK, hright c rfl]
    unfold extract_error_codes
    rw [hdecomp]
    exact List.mem_map_of_mem List.asString
      (scanCodes_complete ((u ++ t ++ v).length + 1) u false ht hbd
        (fun _ => rfl) hleft (Nat.lt_succ_self _))

/-- C3 (witness): soundness applied to the extracted `s304`, and
completeness applied to `s304` occurring inside `go s304 now`. -/
theorem extract_error_codes_spec_witness :
    isCodeToken ("s304".toList) ∧
    (['s', '3', '0', '4'] : List Char).asString ∈ extract_error_codes "go s304 now" := by
  have h := extract_error_codes_spec
  constructor
  · exact h.1 "error s304" "s304" (by decide)
  · refine h.2.1 "go s304 now" "go ".toList ['s', '3', '0', '4'] " now".toList
      (by decide)
      ⟨['s'], [], ['3', '0', '4'], rfl, by decide, by decide, by decide, by decide,
        Or.inl rfl⟩
      ?_ ?_
    · intro c hc
      rw [show ("go ".toList.getLast?) = some ' ' from rfl] at hc
      injection hc with hc2
      rw [← hc2]
      rfl
    · intro c hc
      rw [show (" now".toList.head?) = some ' ' from rfl] at hc
      injection hc with hc2
      rw [← hc2]
      rfl
